import Mathlib

/-!
Shallow embedding of the `tomldb` transactional mutation engine
(`src/args.rs`, `src/db.rs`, `src/types.rs`): the document model
(a model of the external `toml_edit` crate's `Item`/`Table`), the value
type classifier, the action resolver `TableArgs::action`, evaluation
`TableArgs::eval`, the journal and the commit protocol `Journal::commit`.
-/

namespace Tomldb

/-- Model of `toml_edit::Value`: each variant carries `rendered`, its
serialized textual form (decor and quoting style included), which is what
`to_string()` returns.  The engine only inspects a value's shape
(`is_str`, `is_bool`, ...) and its serialized form, so the payload beyond
`rendered` is not modelled. -/
inductive Value where
  | string (rendered : String)
  | integer (rendered : String)
  | float (rendered : String)
  | boolean (rendered : String)
  | datetime (rendered : String)
  | array (rendered : String)
  | inlineTable (rendered : String)
deriving DecidableEq, Repr

mutual
/-- Model of `toml_edit::Item`. -/
inductive Item where
  | none
  | value (v : Value)
  | table (t : Entries)
  | arrayOfTables (rendered : String)
deriving DecidableEq, Repr
/-- Model of `toml_edit::Table`: an insertion-ordered association list of
string keys to items. -/
inductive Entries where
  | nil
  | cons (k : String) (i : Item) (rest : Entries)
deriving DecidableEq, Repr
end

/-- `Table::get`: first entry with the given key. -/
def Entries.get? : Entries → String → Option Item
  | .nil, _ => Option.none
  | .cons k i rest, key => if k = key then some i else rest.get? key

/-- `Table::contains_key`. -/
def Entries.containsKey (t : Entries) (key : String) : Bool :=
  (t.get? key).isSome

/-- `Table::contains_table`: the key holds an `Item::Table`. -/
def Entries.containsTable (t : Entries) (key : String) : Bool :=
  match t.get? key with
  | some (.table _) => true
  | _ => false

/-- `table[key] = item` / `Entry::insert`: replace in place when the key
exists, else append at the end (insertion order preserved). -/
def Entries.set : Entries → String → Item → Entries
  | .nil, key, item => .cons key item .nil
  | .cons k i rest, key, item =>
    if k = key then .cons k item rest else .cons k i (rest.set key item)

/-- `Table::remove`. -/
def Entries.removeKey : Entries → String → Entries
  | .nil, _ => .nil
  | .cons k i rest, key =>
    if k = key then rest else .cons k i (rest.removeKey key)

mutual
/-- `Item::to_string` (`Display`): a value renders as its stored serialized
form; a table renders through `Entries.render` (abstraction of
`toml_edit`'s table display). -/
def Item.toString : Item → String
  | .none => ""
  | .value v =>
    match v with
    | .string r | .integer r | .float r | .boolean r
    | .datetime r | .array r | .inlineTable r => r
  | .table t => Entries.render t
  | .arrayOfTables r => r
/-- Abstraction of `toml_edit`'s table/document serialization
(`DocumentMut::to_string`): deterministic rendering of the entry list. -/
def Entries.render : Entries → String
  | .nil => ""
  | .cons k i rest => k ++ " = " ++ Item.toString i ++ "\n" ++ Entries.render rest
end

/-- Rust's `str::split('.')` on the char list of the table path:
an empty input yields one empty segment. -/
def splitDotChars : List Char → List String
  | [] => [""]
  | c :: rest =>
    match splitDotChars rest with
    | [] => []
    | s :: ss =>
      if c = '.' then "" :: s :: ss else (c.toString ++ s) :: ss

/-- `self.table.split('.')` as a list of path segments. -/
def splitDot (s : String) : List String :=
  splitDotChars s.data

/-- Modelled from the spec: the Value Type closed set
"String, Bool, Float, Integer, Object (inline table), Append (array),
Import (table materialized from an external document)".  The `types.rs`
under `src/` is a stale five-variant historical snapshot
(String/Bool/Float/Integer/InlineTable); the exhaustive matches over
`Types` in `TableArgs::set_item`/`remove_item` (src/args.rs lines 250-258,
284-292) require exactly these seven variants. -/
inductive Types where
  | String
  | Bool
  | Float
  | Integer
  | Object
  | Append
  | Import
deriving DecidableEq, Repr

/-- Alias used in signatures under the `Types` namespace, where the bare
name `Bool` would denote the constructor `Types.Bool`. -/
abbrev BoolTy := Bool

/-- Alias used in signatures under the `Types` namespace, where the bare
name `String` would denote the constructor `Types.String`. -/
abbrev StringTy := String

/-- Modelled from the spec: `matches(type, value)` of the Value Type
Classifier ("String↔text scalar, Bool↔boolean scalar, Float↔floating
scalar, Integer↔integer scalar, Object↔inline table, Append↔array,
Import↔table"), identical to the occupied-entry checks of
`TableArgs::set_item` and agreeing with the stale `Types::is_type` of
`types.rs` on the five variants both versions share. -/
def Types.is_type : Types → Item → BoolTy
  | .String, .value (.string _) => true
  | .String, _ => false
  | .Bool, .value (.boolean _) => true
  | .Bool, _ => false
  | .Float, .value (.float _) => true
  | .Float, _ => false
  | .Integer, .value (.integer _) => true
  | .Integer, _ => false
  | .Object, .value (.inlineTable _) => true
  | .Object, _ => false
  | .Append, .value (.array _) => true
  | .Append, _ => false
  | .Import, .table _ => true
  | .Import, _ => false

/-- `Display for Types`: the boundary token of each variant. -/
def Types.token : Types → StringTy
  | .String => "str"
  | .Bool => "bool"
  | .Float => "float"
  | .Integer => "int"
  | .Object => "obj"
  | .Append => "append"
  | .Import => "import"

/-- Modelled from the spec: the boundary surface that accepts the tokens
`str`, `bool`, `float`, `int`, `obj`, `append`, `import` (the clap
`ValueEnum` names of the seven variants). -/
def Types.parseToken (s : StringTy) : Option Types :=
  if s = "str" then some .String
  else if s = "bool" then some .Bool
  else if s = "float" then some .Float
  else if s = "int" then some .Integer
  else if s = "obj" then some .Object
  else if s = "append" then some .Append
  else if s = "import" then some .Import
  else Option.none

/-- `TableArgs` (src/args.rs lines 11-49): one mutation request. -/
structure TableArgs where
  remove : Bool := false
  modify : Bool := false
  table : String := ""
  value_type : Types := .String
  extended_value_type : Option Types := Option.none
  key : String := ""
  value : Option Item := Option.none
  /-- `import_path`, set when `value_type` was `-X import`; modelled as the
  path's textual form. -/
  importPath : Option String := Option.none
deriving DecidableEq, Repr

/-- `TableAction` (src/args.rs lines 52-82). -/
inductive TableAction where
  | Insert (args : TableArgs)
  | Replace (args : TableArgs)
  | Remove (args : TableArgs)
  | View (args : TableArgs)
  | Exists (args : TableArgs)
  | WouldRemove
  | WouldReplace
  | RejectTypeMismatch
  | RejectExistingValueMismatch
  | InternalRejectMissingTable
  | NoOP
deriving DecidableEq, Repr

/-- The table path's segments, `self.table.split('.')`. -/
def TableArgs.segs (args : TableArgs) : List String :=
  splitDot args.table

/-- `try_fold` of `TableArgs::get_table`: follow the path read-only,
each segment through `get(k).and_then(as_table)`. -/
def getTablePath : Entries → List String → Option Entries
  | t, [] => some t
  | t, k :: ks =>
    match t.get? k with
    | some (.table sub) => getTablePath sub ks
    | _ => Option.none

/-- `TableArgs::get_table`. -/
def TableArgs.get_table (args : TableArgs) (doc : Entries) : Option Entries :=
  getTablePath doc args.segs

/-- `TableArgs::has_table`. -/
def TableArgs.has_table (args : TableArgs) (doc : Entries) : Bool :=
  (args.get_table doc).isSome

/-- `TableArgs::get_entry`. -/
def TableArgs.get_entry (args : TableArgs) (doc : Entries) : Option Item :=
  match args.get_table doc with
  | some t => t.get? args.key
  | Option.none => Option.none

/-- `TableArgs::action` (src/args.rs lines 87-166): the Action Resolver's
decision table over `(remove, modify)`. -/
def TableArgs.action (args : TableArgs) (doc : Entries) : Option TableAction :=
  if !args.has_table doc then
    some .InternalRejectMissingTable
  else
    match args.remove, args.modify with
    | true, true =>
      (args.get_entry doc).map fun e =>
        if args.value_type.is_type e then .Replace args
        else .RejectTypeMismatch
    | false, true =>
      let item := args.value.getD Item.none
      (args.get_entry doc).map fun e =>
        if args.value_type.is_type e then
          if item = Item.none then .View args
          else if item.toString = e.toString then .Replace args
          else .RejectExistingValueMismatch
        else .RejectTypeMismatch
    | true, false =>
      (args.get_entry doc).map fun e =>
        if args.value_type.is_type e then .WouldRemove
        else .RejectTypeMismatch
    | false, false =>
      let item := args.value.getD Item.none
      some (((args.get_entry doc).map fun e =>
        if args.value_type.is_type e then
          if item = Item.none then .NoOP
          else if item.toString = e.toString then .Exists args
          else .RejectExistingValueMismatch
        else .RejectTypeMismatch).getD (.Insert args))

/-- The fold of `TableArgs::get_table_mut` (src/args.rs lines 200-215),
generalized over the operation `f` applied at the target table: a missing
segment (neither a table nor any other entry) is created as an empty
table; an existing table is descended into; a segment occupied by a
non-table entry stops the fold with an error (`none` in the second
component), leaving everything already traversed as it was. -/
def modifyTablePath {α : Type} : Entries → List String → (Entries → Entries × α) →
    Entries × Option α
  | t, [], f =>
    let r := f t
    (r.1, some r.2)
  | t, k :: ks, f =>
    if !t.containsTable k && !t.containsKey k then
      let r := modifyTablePath Entries.nil ks f
      (t.set k (.table r.1), r.2)
    else if t.containsTable k then
      match t.get? k with
      | some (.table sub) =>
        let r := modifyTablePath sub ks f
        (t.set k (.table r.1), r.2)
      | _ => (t, Option.none)
    else (t, Option.none)

/-- `TableArgs::get_table_mut` used for its side effect alone (the
materialization step of `eval`): the updated document and whether the
path could be created (`false` models the `Err("Could not create
table")`). -/
def TableArgs.get_table_mut (args : TableArgs) (doc : Entries) : Entries × Bool :=
  let r := modifyTablePath doc args.segs (fun t => (t, ()))
  (r.1, r.2.isSome)

/-- Result of `TableArgs::set_item`. -/
inductive SetResult where
  | ok (replaced : Option Item)
  | errNoValue
  | errPath
  | errType
deriving DecidableEq, Repr

/-- The per-table write of `TableArgs::set_item` (the `table.entry` match,
src/args.rs lines 248-270): on an occupied entry the occupant must match
the declared type or the write fails; on a vacant entry the value is
inserted. -/
def setOp (key : String) (vt : Types) (item : Item) (t : Entries) :
    Entries × SetResult :=
  match t.get? key with
  | some occ =>
    if vt.is_type occ then (t.set key item, SetResult.ok (some occ))
    else (t, SetResult.errType)
  | Option.none => (t.set key item, SetResult.ok Option.none)

/-- Converts the fold outcome into `set_item`'s result: a failed path
resolution is the `Err` of `get_table_mut`. -/
def finishSet : Entries × Option SetResult → Entries × SetResult
  | (d, some s) => (d, s)
  | (d, Option.none) => (d, .errPath)

/-- `TableArgs::set_item` (src/args.rs lines 243-274): requires a value;
resolves the table via `get_table_mut` (creating it as needed), then
performs `setOp` at the target table. -/
def TableArgs.set_item (args : TableArgs) (doc : Entries) : Entries × SetResult :=
  match args.value with
  | Option.none => (doc, .errNoValue)
  | some item =>
    finishSet (modifyTablePath doc args.segs (setOp args.key args.value_type item))

/-- Result of `TableArgs::remove_item`. -/
inductive RemoveResult where
  | ok (removed : Option Item)
  | errPath
  | errCannot
deriving DecidableEq, Repr

/-- The per-table removal of `TableArgs::remove_item` when a value is
supplied (src/args.rs lines 282-301): the occupant must match the
declared type and serialize identically to the supplied value, or
nothing is removed. -/
def removeOpChecked (key : String) (vt : Types) (item : Item) (t : Entries) :
    Entries × RemoveResult :=
  if (match t.get? key with
      | some occ => vt.is_type occ && occ.toString = item.toString
      | Option.none => false) then
    (t.removeKey key, RemoveResult.ok (t.get? key))
  else (t, RemoveResult.errCannot)

/-- The per-table removal of `TableArgs::remove_item` when no value is
supplied (src/args.rs lines 303-306): the key is removed
unconditionally. -/
def removeOpPlain (key : String) (t : Entries) : Entries × RemoveResult :=
  (t.removeKey key, RemoveResult.ok (t.get? key))

/-- Converts the fold outcome into `remove_item`'s result: a failed path
resolution is the `Err` of `get_table_mut`. -/
def finishRemove : Entries × Option RemoveResult → Entries × RemoveResult
  | (d, some s) => (d, s)
  | (d, Option.none) => (d, .errPath)

/-- `TableArgs::remove_item` (src/args.rs lines 277-307): resolves the
table via `get_table_mut` (creating it as needed), then removes checked
against the supplied value, or unconditionally without one. -/
def TableArgs.remove_item (args : TableArgs) (doc : Entries) : Entries × RemoveResult :=
  match args.value with
  | some item =>
    finishRemove (modifyTablePath doc args.segs
      (removeOpChecked args.key args.value_type item))
  | Option.none =>
    finishRemove (modifyTablePath doc args.segs (removeOpPlain args.key))

/-- The apply phase of `TableArgs::eval` (the `if let Some(action)` match,
src/args.rs lines 177-196): `Remove` removes, `Replace`/`Insert` write,
`View` only reads (its `println!` output is not modelled), everything
else leaves the document alone; `None` is the hard error "Could not
evaluate table action from arguments". -/
def evalStep (args : TableArgs) (doc : Entries) :
    Option TableAction → Entries × Except StringTy TableAction
  | Option.none => (doc, .error "Could not evaluate table action from arguments")
  | some a =>
    match a with
    | .Remove _ =>
      match args.remove_item doc with
      | (doc2, .ok _) => (doc2, .ok a)
      | (doc2, .errPath) => (doc2, .error "Could not create table")
      | (doc2, .errCannot) => (doc2, .error "Cannot remove item")
    | .Replace _ | .Insert _ =>
      match args.set_item doc with
      | (doc2, .ok _) => (doc2, .ok a)
      | (doc2, .errPath) => (doc2, .error "Could not create table")
      | (doc2, .errType) => (doc2, .error "Could not set item")
      | (doc2, .errNoValue) => (doc2, .error "Could not set item")
    | _ => (doc, .ok a)

/-- `TableArgs::eval` (src/args.rs lines 169-197): resolve; on the
internal `MissingTable` signal materialize the path through
`get_table_mut` (its error aborts evaluation) and resolve once more;
then apply the resolved action. -/
def TableArgs.eval (args : TableArgs) (doc : Entries) :
    Entries × Except StringTy TableAction :=
  match args.action doc with
  | some .InternalRejectMissingTable =>
    let m := args.get_table_mut doc
    if m.2 then evalStep args m.1 (args.action m.1)
    else (m.1, .error "Could not create table")
  | a => evalStep args doc a

/-- `Journal` (src/db.rs lines 58-65). -/
structure Journal where
  doc : Entries := .nil
  pending : List TableArgs := []
  evaluated : List (TableAction × TableArgs) := []

/-- `Journal::push_change`. -/
def Journal.push_change (j : Journal) (args : TableArgs) : Journal :=
  { j with pending := j.pending ++ [args] }

/-- The drain loop of `Journal::evaluate_args`: each pending request is
evaluated against the running document; a successful evaluation appends
to `evaluated`, an error is logged (`eprintln!`, not modelled) and the
request dropped. -/
def evalLoop : Entries → List (TableAction × TableArgs) → List TableArgs →
    Entries × List (TableAction × TableArgs)
  | doc, acc, [] => (doc, acc)
  | doc, acc, args :: rest =>
    match args.eval doc with
    | (doc2, .ok a) => evalLoop doc2 (acc ++ [(a, args)]) rest
    | (doc2, .error _) => evalLoop doc2 acc rest

/-- `Journal::evaluate_args` (src/db.rs lines 88-99). -/
def Journal.evaluate_args (j : Journal) : Journal :=
  let r := evalLoop j.doc j.evaluated j.pending
  { doc := r.1, pending := [], evaluated := r.2 }

/-- `Transaction` (src/db.rs lines 35-54); file handles and the
cancellation token are reduced to the presence of the handle, which is
all `Journal::commit` inspects. -/
inductive Transaction where
  | Empty
  | Read
  | Write (journal : Option Unit)
  | Commit
deriving DecidableEq, Repr

/-- One write the commit performs against the file system: an append to
the journal file or an overwrite of the data file. -/
inductive WriteEvent where
  | journalAppend (s : String)
  | dataWrite (s : String)
deriving DecidableEq, Repr

/-- `Display for TableArgs` (src/args.rs lines 406-436):
`[--modify ][--remove ]-t '<table>' -X <type> [-Y <extended_type> ]'<key>'`
followed by ` -- '<import_path>'` when the type is `Import` and an import
path is set, else ` -- <value>` when a value is set. -/
def TableArgs.render (args : TableArgs) : String :=
  (if args.modify then "--modify " else "")
  ++ (if args.remove then "--remove " else "")
  ++ "-t '" ++ args.table ++ "' "
  ++ "-X " ++ args.value_type.token ++ " "
  ++ (match args.extended_value_type with
      | some y => "-Y " ++ y.token ++ " "
      | Option.none => "")
  ++ "'" ++ args.key ++ "'"
  ++ (match args.importPath, args.value_type with
      | some p, .Import => " -- '" ++ p ++ "'"
      | _, _ =>
        match args.value with
        | some v => " -- " ++ v.toString
        | Option.none => "")

/-- `Display for TableAction` (src/args.rs lines 377-404): the action
verb, a space, then the argument rendering; the payload-less variants
render as the empty string. -/
def TableAction.render : TableAction → String
  | .Insert a => "insert " ++ a.render
  | .Replace a => "replace " ++ a.render
  | .Remove a => "remove " ++ a.render
  | .View a => "view " ++ a.render
  | .Exists a => "exists " ++ a.render
  | _ => ""

/-- `Journal::commit` (src/db.rs lines 106-122) as the sequence of file
writes it performs: in the `Commit` state one newline-terminated journal
record per evaluated action, in order, followed by the data-file
overwrite with the serialized document; in the `Write` state a no-op
success; any other state is an error. -/
def Journal.commit (j : Journal) (tx : Transaction) :
    Except StringTy (List WriteEvent) :=
  match tx with
  | .Commit =>
    .ok ((j.evaluated.map fun p => WriteEvent.journalAppend (TableAction.render p.1 ++ "\n"))
      ++ [WriteEvent.dataWrite (Entries.render j.doc)])
  | .Write _ => .ok []
  | _ => .error "Expecting tx to be either in the Commit or Write state"

/-- Model of the external file system as seen by
`std::fs::read_to_string`: a path's contents when the read succeeds. -/
def FileSys := String → Option String

/-- `<PathBuf as KeyValueType>::to_toml_item` (src/args.rs lines 462-469),
parameterized over the external TOML parser (`toml_edit::ImDocument::parse`
followed by `as_item`, which may fail): a failed read falls into the
`Err(_)` arm and yields `Item::None`, but a successful read whose parse
fails hits the `.unwrap()` inside the `and_then` closure, which panics —
modelled as `Except.error ()`. -/
def pathBufToTomlItem (parse : String → Option Item) (fs : FileSys)
    (path : String) : Except Unit Item :=
  match fs path with
  | Option.none => .ok Item.none
  | some contents =>
    match parse contents with
    | some item => .ok item
    | Option.none => .error ()

/-! ### Helper lemmas about the resolver -/

theorem has_table_of_get_entry {args : TableArgs} {doc : Entries} {e : Item}
    (h : args.get_entry doc = some e) : args.has_table doc = true := by
  unfold TableArgs.get_entry at h
  unfold TableArgs.has_table
  cases hg : args.get_table doc with
  | none => rw [hg] at h; exact absurd h (by simp)
  | some t => simp

/-- Decision equation of the `(remove=true, modify=true)` branch. -/
theorem action_eq_tt {args : TableArgs} {doc : Entries} {e : Item}
    (hr : args.remove = true) (hm : args.modify = true)
    (he : args.get_entry doc = some e) :
    args.action doc =
      some (if args.value_type.is_type e then .Replace args else .RejectTypeMismatch) := by
  unfold TableArgs.action
  rw [has_table_of_get_entry he, hr, hm]
  simp [he]

/-- Decision equation of the `(remove=false, modify=true)` branch. -/
theorem action_eq_ft {args : TableArgs} {doc : Entries} {e : Item}
    (hr : args.remove = false) (hm : args.modify = true)
    (he : args.get_entry doc = some e) :
    args.action doc =
      some (if args.value_type.is_type e then
              if args.value.getD Item.none = Item.none then .View args
              else if (args.value.getD Item.none).toString = e.toString then .Replace args
              else .RejectExistingValueMismatch
            else .RejectTypeMismatch) := by
  unfold TableArgs.action
  rw [has_table_of_get_entry he, hr, hm]
  simp [he]

/-- Decision equation of the `(remove=true, modify=false)` branch. -/
theorem action_eq_tf {args : TableArgs} {doc : Entries} {e : Item}
    (hr : args.remove = true) (hm : args.modify = false)
    (he : args.get_entry doc = some e) :
    args.action doc =
      some (if args.value_type.is_type e then .WouldRemove else .RejectTypeMismatch) := by
  unfold TableArgs.action
  rw [has_table_of_get_entry he, hr, hm]
  simp [he]

/-- Decision equation of the `(remove=false, modify=false)` branch on a
present key. -/
theorem action_eq_ff {args : TableArgs} {doc : Entries} {e : Item}
    (hr : args.remove = false) (hm : args.modify = false)
    (he : args.get_entry doc = some e) :
    args.action doc =
      some (if args.value_type.is_type e then
              if args.value.getD Item.none = Item.none then .NoOP
              else if (args.value.getD Item.none).toString = e.toString then .Exists args
              else .RejectExistingValueMismatch
            else .RejectTypeMismatch) := by
  unfold TableArgs.action
  rw [has_table_of_get_entry he, hr, hm]
  simp [he]

/-- On an existing table with an absent key, every branch other than
`(remove=false, modify=false)` resolves to no action at all. -/
theorem action_eq_absent {args : TableArgs} {doc : Entries}
    (hht : args.has_table doc = true) (he : args.get_entry doc = Option.none)
    (hflag : args.modify = true ∨ (args.remove = true ∧ args.modify = false)) :
    args.action doc = Option.none := by
  unfold TableArgs.action
  rw [hht]
  rcases hflag with hm | ⟨hr, hm⟩
  · rw [hm]
    cases hr : args.remove <;> simp [he]
  · rw [hm, hr]
    simp [he]

/-! ### Concrete example values -/

/-- The string value `"v"` with its serialized form. -/
def exValV : Item := Item.value (Value.string "\"v\"")

/-- The request of testable property 1:
`(table="t", key="k", type=String, value="v", remove=false, modify=false)`. -/
def exReqTK : TableArgs :=
  { table := "t", key := "k", value_type := .String, value := some exValV }

/-- An integer entry `5` as stored in a document. -/
def exVal5 : Item := Item.value (Value.integer "5")

/-- An integer value `7` as supplied by a request. -/
def exVal7 : Item := Item.value (Value.integer "7")

/-- A document holding one table `t` with entry `k = 5`. -/
def exDoc5 : Entries :=
  .cons "t" (.table (.cons "k" exVal5 .nil)) .nil

/-- Force-replace request (`remove=true, modify=true`) for `t.k`,
supplying the value `7`. -/
def exArgsForce : TableArgs :=
  { table := "t", key := "k", remove := true, modify := true,
    value_type := .Integer, value := some exVal7 }

/-- Modify request (`remove=false, modify=true`) for `t.k`, supplying the
differing value `7`. -/
def exArgsDiff : TableArgs :=
  { table := "t", key := "k", modify := true,
    value_type := .Integer, value := some exVal7 }

/-- Modify request (`remove=false, modify=true`) for `t.k`, supplying the
agreeing value `5`. -/
def exArgsSame : TableArgs :=
  { table := "t", key := "k", modify := true,
    value_type := .Integer, value := some exVal5 }

/-- Modify request (`remove=false, modify=true`) for `t.k` with no
value. -/
def exArgsView : TableArgs :=
  { table := "t", key := "k", modify := true, value_type := .Integer }

/-! ### C4 -/

/-- C4: starting from the empty document, evaluating
`(table="t", key="k", type=String, value="v", remove=false, modify=false)`
resolves to `Insert` and writes the value; resolving the identical request
against the resulting document yields `Exists`. -/
theorem insert_then_exists :
    (exReqTK.eval Entries.nil).2 = .ok (.Insert exReqTK) ∧
    (exReqTK.eval Entries.nil).1 =
      Entries.cons "t" (.table (Entries.cons "k" exValV .nil)) .nil ∧
    exReqTK.action (exReqTK.eval Entries.nil).1 = some (.Exists exReqTK) :=
  ⟨rfl, rfl, rfl⟩

/-! ### C2 -/

/-- C2: with `remove=true` and `modify=true`, on an existing table whose
key is present, a type-matching occupant resolves to `Replace` no matter
what value the request supplies (the request's `value` is unconstrained
here), and a type mismatch resolves to `RejectTypeMismatch`. -/
theorem force_replace_decision (doc : Entries) (args : TableArgs) (e : Item)
    (hr : args.remove = true) (hm : args.modify = true)
    (he : args.get_entry doc = some e) :
    (args.value_type.is_type e = true → args.action doc = some (.Replace args)) ∧
    (args.value_type.is_type e = false → args.action doc = some .RejectTypeMismatch) := by
  refine ⟨fun hty => ?_, fun hty => ?_⟩ <;>
    rw [action_eq_tt hr hm he, hty] <;> simp

/-- Witness for C2: existing `t.k = 5` (Integer), a force-replace request
supplying the different value `7` still resolves `Replace`. -/
theorem force_replace_decision_witness :
    exArgsForce.action exDoc5 = some (.Replace exArgsForce) :=
  (force_replace_decision exDoc5 exArgsForce exVal5 rfl rfl rfl).1 rfl

/-! ### C3 -/

/-- C3: with `remove=false` and `modify=true`, on a present key whose
occupant matches the declared type: no supplied value yields `View`; a
supplied value whose serialized textual form equals the occupant's yields
`Replace`; a differing serialized form yields
`RejectExistingValueMismatch`; a type mismatch yields
`RejectTypeMismatch`.  Equality is equality of `to_string` renderings. -/
theorem modify_replace_decision (doc : Entries) (args : TableArgs) (e : Item)
    (hr : args.remove = false) (hm : args.modify = true)
    (he : args.get_entry doc = some e) :
    (args.value_type.is_type e = true →
      (args.value = Option.none → args.action doc = some (.View args)) ∧
      (∀ v, args.value = some v → v ≠ Item.none →
        (v.toString = e.toString → args.action doc = some (.Replace args)) ∧
        (v.toString ≠ e.toString →
          args.action doc = some .RejectExistingValueMismatch))) ∧
    (args.value_type.is_type e = false →
      args.action doc = some .RejectTypeMismatch) := by
  rw [action_eq_ft hr hm he]
  refine ⟨fun hty => ⟨fun hv => ?_, fun v hv hvn => ⟨fun hs => ?_, fun hs => ?_⟩⟩,
    fun hty => ?_⟩
  · rw [hty, hv]; simp
  · rw [hty, hv]; simp [hvn, hs]
  · rw [hty, hv]; simp [hvn, hs]
  · rw [hty]; simp

/-- Witness for C3: existing `t.k = 5` (Integer); a request with the
different value `7` rejects with `RejectExistingValueMismatch`, one with
the same value `5` resolves `Replace`, one with no value resolves
`View`. -/
theorem modify_replace_decision_witness :
    exArgsDiff.action exDoc5 = some .RejectExistingValueMismatch ∧
    exArgsSame.action exDoc5 = some (.Replace exArgsSame) ∧
    exArgsView.action exDoc5 = some (.View exArgsView) :=
  ⟨(((modify_replace_decision exDoc5 exArgsDiff exVal5 rfl rfl rfl).1 rfl).2
      exVal7 rfl (by decide)).2 (by decide),
   (((modify_replace_decision exDoc5 exArgsSame exVal5 rfl rfl rfl).1 rfl).2
      exVal5 rfl (by decide)).1 rfl,
   ((modify_replace_decision exDoc5 exArgsView exVal5 rfl rfl rfl).1 rfl).1 rfl⟩

/-! ### C7 -/

/-- C7: the Value Type enumeration is the closed set of exactly the seven
variants String, Bool, Float, Integer, Object, Append, Import, and the
boundary tokens `str`, `bool`, `float`, `int`, `obj`, `append`, `import`
map 1:1 onto them. -/
theorem value_type_tokens :
    (∀ t : Types, t ∈ [Types.String, .Bool, .Float, .Integer, .Object, .Append, .Import]) ∧
    [Types.String, .Bool, .Float, .Integer, .Object, .Append, .Import].length = 7 ∧
    [Types.String, .Bool, .Float, .Integer, .Object, .Append, .Import].Nodup ∧
    Types.String.token = "str" ∧ Types.Bool.token = "bool" ∧
    Types.Float.token = "float" ∧ Types.Integer.token = "int" ∧
    Types.Object.token = "obj" ∧ Types.Append.token = "append" ∧
    Types.Import.token = "import" ∧
    (∀ t : Types, Types.parseToken t.token = some t) ∧
    (∀ s t, Types.parseToken s = some t → t.token = s) := by
  refine ⟨fun t => by cases t <;> simp, rfl, by decide, rfl, rfl, rfl, rfl, rfl, rfl, rfl,
    fun t => by cases t <;> rfl, fun s t h => ?_⟩
  cases t <;> (unfold Types.parseToken at h; split_ifs at h <;> simp_all [Types.token])

/-! ### C1 -/

/-- C1: `Journal::commit` in the `Commit` state appends exactly one
newline-terminated journal record per evaluated action, in evaluation
order, and only afterwards overwrites the data file with the full
serialized document; in the `Write` state it succeeds writing nothing;
in any other state it errors. -/
theorem commit_protocol (j : Journal) (tx : Transaction) :
    (tx = .Commit →
      j.commit tx = .ok
        ((j.evaluated.map fun p => WriteEvent.journalAppend (TableAction.render p.1 ++ "\n"))
          ++ [WriteEvent.dataWrite (Entries.render j.doc)]) ∧
      (j.evaluated.map fun p => WriteEvent.journalAppend (TableAction.render p.1 ++ "\n")).length
        = j.evaluated.length) ∧
    (∀ h, tx = .Write h → j.commit tx = .ok []) ∧
    (tx = .Empty → ∃ msg, j.commit tx = .error msg) ∧
    (tx = .Read → ∃ msg, j.commit tx = .error msg) := by
  refine ⟨fun hc => ?_, fun h hw => ?_, fun he => ?_, fun hr => ?_⟩
  · subst hc; exact ⟨rfl, List.length_map _ _⟩
  · subst hw; rfl
  · subst he; exact ⟨_, rfl⟩
  · subst hr; exact ⟨_, rfl⟩

/-- The journal of the C1 witness: one evaluated `Insert` action over the
document `t = { k = "v" }`. -/
def exJournal : Journal :=
  { doc := Entries.cons "t" (.table (Entries.cons "k" exValV .nil)) .nil,
    evaluated := [(.Insert exReqTK, exReqTK)] }

/-- Witness for C1: committing the one-action journal in the `Commit`
state writes the one journal record, then the data file; committing it in
the `Write` state writes nothing. -/
theorem commit_protocol_witness :
    exJournal.commit .Commit = .ok
      [WriteEvent.journalAppend "insert -t 't' -X str 'k' -- \"v\"\n",
       WriteEvent.dataWrite "t = k = \"v\"\n\n"] ∧
    exJournal.commit (.Write (some ())) = .ok [] :=
  ⟨((commit_protocol exJournal .Commit).1 rfl).1,
   (commit_protocol exJournal (.Write (some ()))).2.1 (some ()) rfl⟩

/-! ### C8 -/

/-- C8, the code as written: constructing an Import value from a path
degrades a *read* failure to `Item::None`, but a successful read whose
*parse* fails reaches the `.unwrap()` and panics instead of degrading —
contradicting the documented by-design behavior that both failures yield
the `None` value. -/
theorem import_parse_failure_panics (parse : String → Option Item) (fs : FileSys)
    (p c : String) (hread : fs p = some c) (hparse : parse c = Option.none) :
    pathBufToTomlItem parse fs p = .error () ∧
    (∀ q, fs q = Option.none → pathBufToTomlItem parse fs q = .ok Item.none) := by
  constructor
  · simp only [pathBufToTomlItem, hread, hparse]
  · intro q hq
    simp only [pathBufToTomlItem, hq]

/-- A file system with one readable file `bad.toml` whose contents do not
parse. -/
def exBadFs : FileSys := fun q => if q = "bad.toml" then some "=" else Option.none

/-- A parse outcome on which the external parser fails. -/
def exFailParse : String → Option Item := fun _ => Option.none

/-- Witness for C8: importing `bad.toml` (readable, unparsable) panics,
while importing an unreadable path yields `Item::None`. -/
theorem import_parse_failure_panics_witness :
    pathBufToTomlItem exFailParse exBadFs "bad.toml" = .error () ∧
    pathBufToTomlItem exFailParse exBadFs "a.toml" = .ok Item.none :=
  ⟨(import_parse_failure_panics exFailParse exBadFs "bad.toml" "=" rfl rfl).1,
   (import_parse_failure_panics exFailParse exBadFs "bad.toml" "=" rfl rfl).2 "a.toml" rfl⟩

/-! ### C9 -/

/-- The spec's canonical journal-record form, built from its words:
`[--modify ][--remove ]-t '<table_path>' -X <type> [-Y <extended_type> ]'<key>' [-- <value-or-import-path>]`,
the optional final segment filled with the quoted import path for an
`Import` request carrying one, else with the serialized value when one is
present. -/
def canonicalFormSpec (args : TableArgs) : String :=
  (if args.modify then "--modify " else "")
  ++ (if args.remove then "--remove " else "")
  ++ "-t '" ++ args.table ++ "' "
  ++ "-X " ++ args.value_type.token ++ " "
  ++ (match args.extended_value_type with
      | some y => "-Y " ++ y.token ++ " "
      | Option.none => "")
  ++ "'" ++ args.key ++ "'"
  ++ (match args.importPath, args.value_type with
      | some p, .Import => " -- '" ++ p ++ "'"
      | _, _ =>
        match args.value with
        | some v => " -- " ++ v.toString
        | Option.none => "")

/-- Counterexample to C9: the journal line of a committed `Insert` is the
action verb followed by the canonical form, not exactly the canonical
form `[--modify ][--remove ]-t ... '<key>' [-- <value>]` the claim
states. -/
theorem journal_line_counterexample :
    exJournal.commit .Commit = .ok
      [WriteEvent.journalAppend ("insert " ++ canonicalFormSpec exReqTK ++ "\n"),
       WriteEvent.dataWrite "t = k = \"v\"\n\n"] ∧
    ("insert " ++ canonicalFormSpec exReqTK ++ "\n") ≠ (canonicalFormSpec exReqTK ++ "\n") :=
  ⟨rfl, by decide⟩

/-- C9 as amended: the argument rendering coincides with the spec's
canonical form, and each committed mutation's journal line is the action
verb (`insert`, `replace`, `remove`, `view`, `exists`), a space, then the
canonical form; the payload-less variants render as the empty string, so
such records are bare newlines. -/
theorem journal_line_amended (args : TableArgs) :
    TableArgs.render args = canonicalFormSpec args ∧
    TableAction.render (.Insert args) = "insert " ++ canonicalFormSpec args ∧
    TableAction.render (.Replace args) = "replace " ++ canonicalFormSpec args ∧
    TableAction.render (.Remove args) = "remove " ++ canonicalFormSpec args ∧
    TableAction.render (.View args) = "view " ++ canonicalFormSpec args ∧
    TableAction.render (.Exists args) = "exists " ++ canonicalFormSpec args ∧
    TableAction.render .WouldRemove = "" ∧
    TableAction.render .WouldReplace = "" ∧
    TableAction.render .RejectTypeMismatch = "" ∧
    TableAction.render .RejectExistingValueMismatch = "" ∧
    TableAction.render .InternalRejectMissingTable = "" ∧
    TableAction.render .NoOP = "" ∧
    (∀ (j : Journal), j.commit .Commit = .ok
      ((j.evaluated.map fun p => WriteEvent.journalAppend (TableAction.render p.1 ++ "\n"))
        ++ [WriteEvent.dataWrite (Entries.render j.doc)])) :=
  ⟨rfl, rfl, rfl, rfl, rfl, rfl, rfl, rfl, rfl, rfl, rfl, rfl, fun _ => rfl⟩

/-! ### C6 -/

/-- A document holding one empty table `t`. -/
def exDocT : Entries := .cons "t" (.table .nil) .nil

/-- A `remove=true, modify=false` request for the absent key `t.k`. -/
def exArgsAbsent : TableArgs := { table := "t", key := "k", remove := true }

/-- A `remove=true, modify=true` request for the absent key `t.k`. -/
def exArgsAbsentM : TableArgs :=
  { table := "t", key := "k", remove := true, modify := true }

/-- Counterexample to C6: a `remove=true, modify=false` request on an
existing table with an absent key does yield no action from the
resolver, but `eval` surfaces this as the hard error "Could not evaluate
table action from arguments" — the very error the claim reserves for a
resolver internal contradiction. -/
theorem absent_key_counterexample :
    exArgsAbsent.action exDocT = Option.none ∧
    exArgsAbsent.eval exDocT =
      (exDocT, .error "Could not evaluate table action from arguments") :=
  ⟨rfl, rfl⟩

/-- C6 as amended: on an existing table with an absent key, any
`modify=true` request and any `remove=true, modify=false` request
resolves to no action; `eval` turns that into the hard error
"Could not evaluate table action from arguments" (indistinguishable from
a resolver internal contradiction), leaving the document untouched; and
`Journal::evaluate_args` drops the failed request and continues with the
rest of the batch. -/
theorem absent_key_amended (doc : Entries) (args : TableArgs) (t : Entries)
    (ht : args.get_table doc = some t) (hk : t.get? args.key = Option.none)
    (hflag : args.modify = true ∨ (args.remove = true ∧ args.modify = false)) :
    args.action doc = Option.none ∧
    args.eval doc = (doc, .error "Could not evaluate table action from arguments") ∧
    (∀ acc rest, evalLoop doc acc (args :: rest) = evalLoop doc acc rest) := by
  have hht : args.has_table doc = true := by
    unfold TableArgs.has_table
    rw [ht]
    rfl
  have hge : args.get_entry doc = Option.none := by
    unfold TableArgs.get_entry
    rw [ht]
    exact hk
  have ha := action_eq_absent hht hge hflag
  have heval : args.eval doc =
      (doc, .error "Could not evaluate table action from arguments") := by
    unfold TableArgs.eval
    rw [ha]
    rfl
  refine ⟨ha, heval, fun acc rest => ?_⟩
  conv_lhs => unfold evalLoop
  rw [heval]

/-- Witness for C6's amended statement: the `remove=true, modify=true`
request on absent `t.k` resolves to no action and errors in `eval`. -/
theorem absent_key_amended_witness :
    exArgsAbsentM.action exDocT = Option.none ∧
    exArgsAbsentM.eval exDocT =
      (exDocT, .error "Could not evaluate table action from arguments") :=
  ⟨(absent_key_amended exDocT exArgsAbsentM .nil rfl rfl (Or.inl rfl)).1,
   (absent_key_amended exDocT exArgsAbsentM .nil rfl rfl (Or.inl rfl)).2.1⟩

/-! ### Lemmas about `Entries.set` and `modifyTablePath` -/

/-- Induction over the entry list alone (the generated recursor of the
mutual inductive has several motives, which `induction` cannot use). -/
theorem Entries.ind {P : Entries → Prop} (hnil : P .nil)
    (hcons : ∀ k i rest, P rest → P (.cons k i rest)) : ∀ t, P t
  | .nil => hnil
  | .cons k i rest => hcons k i rest (Entries.ind hnil hcons rest)

theorem get_set_self (t : Entries) (k : String) (i : Item) :
    (t.set k i).get? k = some i := by
  induction t using Entries.ind with
  | hnil => simp [Entries.set, Entries.get?]
  | hcons k' i' rest ih =>
    by_cases h : k' = k
    · simp [Entries.set, h, Entries.get?]
    · simp [Entries.set, h, Entries.get?, ih]

theorem get_set_ne {k k2 : String} (h : k2 ≠ k) (t : Entries) (i : Item) :
    (t.set k i).get? k2 = t.get? k2 := by
  have h' : ¬(k = k2) := fun hh => h hh.symm
  induction t using Entries.ind with
  | hnil => simp [Entries.set, Entries.get?, h']
  | hcons k' i' rest ih =>
    by_cases hk : k' = k
    · subst hk
      simp [Entries.set, Entries.get?, h']
    · simp [Entries.set, Entries.get?, hk, ih]

theorem containsKey_set_mono {t : Entries} {k2 : String} (k : String) (i : Item)
    (h : t.containsKey k2 = true) : (t.set k i).containsKey k2 = true := by
  unfold Entries.containsKey at h ⊢
  by_cases hk : k2 = k
  · subst hk
    rw [get_set_self]
    rfl
  · rw [get_set_ne hk]
    exact h

theorem modify_cons_none {α : Type} {t : Entries} {k : String}
    (h : t.get? k = Option.none) (ks : List String) (f : Entries → Entries × α) :
    modifyTablePath t (k :: ks) f =
      (t.set k (.table (modifyTablePath Entries.nil ks f).1),
        (modifyTablePath Entries.nil ks f).2) := by
  simp [modifyTablePath, Entries.containsTable, Entries.containsKey, h]

theorem modify_cons_table {α : Type} {t : Entries} {k : String} {sub : Entries}
    (h : t.get? k = some (.table sub)) (ks : List String) (f : Entries → Entries × α) :
    modifyTablePath t (k :: ks) f =
      (t.set k (.table (modifyTablePath sub ks f).1),
        (modifyTablePath sub ks f).2) := by
  simp [modifyTablePath, Entries.containsTable, Entries.containsKey, h]

theorem modify_cons_blocked {α : Type} {t : Entries} {k : String} {i : Item}
    (h : t.get? k = some i) (hi : ∀ s, i ≠ Item.table s)
    (ks : List String) (f : Entries → Entries × α) :
    modifyTablePath t (k :: ks) f = (t, Option.none) := by
  have hct : t.containsTable k = false := by
    cases i with
    | table s => exact absurd rfl (hi s)
    | none => simp [Entries.containsTable, h]
    | value v => simp [Entries.containsTable, h]
    | arrayOfTables r => simp [Entries.containsTable, h]
  simp [modifyTablePath, hct, Entries.containsKey, h]

/-- The chain of fresh empty tables the materialization fold creates
below the first missing segment. -/
def freshChain : List String → Entries
  | [] => .nil
  | k :: ks => .cons k (.table (freshChain ks)) .nil

theorem mat_nil (ks : List String) :
    modifyTablePath Entries.nil ks (fun t => (t, ())) = (freshChain ks, some ()) := by
  induction ks with
  | nil => rfl
  | cons k ks ih =>
    rw [modify_cons_none (by simp [Entries.get?]) ks, ih]
    rfl

theorem freshChain_get (ks : List String) :
    getTablePath (freshChain ks) ks = some Entries.nil := by
  induction ks with
  | nil => rfl
  | cons k ks ih => simp [freshChain, getTablePath, Entries.get?, ih]

/-- Materializing a path that did not resolve leaves the target table
existing and empty. -/
theorem mat_target_empty : ∀ (segs : List String) (doc doc2 : Entries),
    getTablePath doc segs = Option.none →
    modifyTablePath doc segs (fun t => (t, ())) = (doc2, some ()) →
    getTablePath doc2 segs = some Entries.nil := by
  intro segs
  induction segs with
  | nil =>
    intro doc doc2 h hm
    simp [getTablePath] at h
  | cons k ks ih =>
    intro doc doc2 h hm
    cases hgk : doc.get? k with
    | none =>
      rw [modify_cons_none hgk ks, mat_nil ks] at hm
      injection hm with hm1 hm2
      rw [← hm1]
      simp [getTablePath, get_set_self, freshChain_get]
    | some i =>
      cases i with
      | table sub =>
        have h' : getTablePath sub ks = Option.none := by
          simpa [getTablePath, hgk] using h
        rw [modify_cons_table hgk ks] at hm
        injection hm with hm1 hm2
        have hmm : modifyTablePath sub ks (fun t => (t, ())) =
            ((modifyTablePath sub ks (fun t => (t, ()))).1, some ()) := by
          rw [← hm2]
        have hres := ih sub _ h' hmm
        rw [← hm1]
        simp [getTablePath, get_set_self, hres]
      | none =>
        rw [modify_cons_blocked hgk (by intro s hh; cases hh) ks] at hm
        injection hm with hm1 hm2
        cases hm2
      | value v =>
        rw [modify_cons_blocked hgk (by intro s hh; cases hh) ks] at hm
        injection hm with hm1 hm2
        cases hm2
      | arrayOfTables r =>
        rw [modify_cons_blocked hgk (by intro s hh; cases hh) ks] at hm
        injection hm with hm1 hm2
        cases hm2

/-! ### C5 -/

/-- A document holding the root entry `a = 5` (a non-table blocking the
path `a.b`). -/
def exDocBlocked : Entries := .cons "a" exVal5 .nil

/-- A plain insert request addressed to the blocked table path `a.b`. -/
def exArgsBlocked : TableArgs :=
  { table := "a.b", key := "k", value_type := .String, value := some exValV }

/-- A plain insert request addressed to the missing table path
`a.b.c`. -/
def exArgsABC : TableArgs :=
  { table := "a.b.c", key := "k", value_type := .String, value := some exValV }

/-- Counterexample to C5: when the table path `a.b` does not resolve
because the segment `a` already holds the non-table value `5`, evaluation
does yield the internal `MissingTable` signal first, but the path is
*not* materialized: `eval` returns the hard error "Could not create
table", the document is unchanged, and no second resolution happens. -/
theorem missing_table_counterexample :
    exArgsBlocked.has_table exDocBlocked = false ∧
    exArgsBlocked.action exDocBlocked = some .InternalRejectMissingTable ∧
    exArgsBlocked.eval exDocBlocked =
      (exDocBlocked, .error "Could not create table") ∧
    exArgsBlocked.has_table (exArgsBlocked.eval exDocBlocked).1 = false :=
  ⟨rfl, rfl, rfl, rfl⟩

/-- C5 as amended: a request whose table path does not resolve first
yields the internal `MissingTable` signal; when no segment is blocked by
an existing non-table entry, `get_table_mut` materializes the path (the
target table then exists and is empty), the resolver re-runs exactly once
against it, and for a non-mutating second resolution the materialized
tables persist in the final document; when a segment is blocked,
evaluation returns the hard error "Could not create table" instead. -/
theorem missing_table_amended (doc : Entries) (args : TableArgs)
    (h : args.has_table doc = false) :
    args.action doc = some .InternalRejectMissingTable ∧
    (∀ doc2, args.get_table_mut doc = (doc2, true) →
      args.get_table doc2 = some Entries.nil ∧
      args.has_table doc2 = true ∧
      args.eval doc = evalStep args doc2 (args.action doc2) ∧
      (∀ a, args.action doc2 = some a →
        (∀ b, a ≠ .Insert b) → (∀ b, a ≠ .Replace b) → (∀ b, a ≠ .Remove b) →
        args.eval doc = (doc2, .ok a))) ∧
    (∀ doc2, args.get_table_mut doc = (doc2, false) →
      args.eval doc = (doc2, .error "Could not create table")) := by
  have ha : args.action doc = some .InternalRejectMissingTable := by
    unfold TableArgs.action
    rw [h]
    rfl
  have h' : getTablePath doc args.segs = Option.none := by
    unfold TableArgs.has_table TableArgs.get_table at h
    cases hgt : getTablePath doc args.segs with
    | none => rfl
    | some t => rw [hgt] at h; simp at h
  refine ⟨ha, fun doc2 hm => ?_, fun doc2 hm => ?_⟩
  · have hr : modifyTablePath doc args.segs (fun t => (t, ())) = (doc2, some ()) := by
      unfold TableArgs.get_table_mut at hm
      injection hm with hm1 hm2
      cases ho : (modifyTablePath doc args.segs (fun t => (t, ()))).2 with
      | none => rw [ho] at hm2; simp at hm2
      | some u =>
        cases u
        rw [← hm1, ← ho]
    have hempty : getTablePath doc2 args.segs = some Entries.nil :=
      mat_target_empty args.segs doc doc2 h' hr
    have heval : args.eval doc = evalStep args doc2 (args.action doc2) := by
      unfold TableArgs.eval
      rw [ha, hm]
      rfl
    refine ⟨hempty, by unfold TableArgs.has_table TableArgs.get_table; rw [hempty]; rfl,
      heval, fun a ha2 hni hnr hnrm => ?_⟩
    rw [heval, ha2]
    cases a with
    | Insert b => exact absurd rfl (hni b)
    | Replace b => exact absurd rfl (hnr b)
    | Remove b => exact absurd rfl (hnrm b)
    | View b => rfl
    | Exists b => rfl
    | WouldRemove => rfl
    | WouldReplace => rfl
    | RejectTypeMismatch => rfl
    | RejectExistingValueMismatch => rfl
    | InternalRejectMissingTable => rfl
    | NoOP => rfl
  · have heval : args.eval doc = (doc2, .error "Could not create table") := by
      unfold TableArgs.eval
      rw [ha, hm]
      rfl
    exact heval

/-- Witness for C5's amended statement: materializing `a.b.c` in the
empty document leaves `a.b.c` existing and empty, and evaluation proceeds
as one re-resolution against the materialized document. -/
theorem missing_table_amended_witness :
    exArgsABC.action Entries.nil = some .InternalRejectMissingTable ∧
    exArgsABC.get_table (exArgsABC.get_table_mut Entries.nil).1 = some Entries.nil ∧
    exArgsABC.eval Entries.nil =
      evalStep exArgsABC (exArgsABC.get_table_mut Entries.nil).1
        (exArgsABC.action (exArgsABC.get_table_mut Entries.nil).1) :=
  ⟨(missing_table_amended Entries.nil exArgsABC rfl).1,
   ((missing_table_amended Entries.nil exArgsABC rfl).2.1
      ((exArgsABC.get_table_mut Entries.nil).1) rfl).1,
   ((missing_table_amended Entries.nil exArgsABC rfl).2.1
      ((exArgsABC.get_table_mut Entries.nil).1) rfl).2.2.1⟩

/-! ### Presence of tables and keys, and its preservation -/

/-- The table at path `p` exists in the document. -/
def tablePresent (doc : Entries) (p : List String) : Bool :=
  (getTablePath doc p).isSome

/-- The table at path `p` exists and holds an entry for key `k`. -/
def keyPresent (doc : Entries) (p : List String) (k : String) : Bool :=
  match getTablePath doc p with
  | some t => t.containsKey k
  | Option.none => false

/-- The entry a request addresses: its table path followed by its key. -/
def TableArgs.target (args : TableArgs) : List String :=
  args.segs ++ [args.key]

theorem action_eq_missing {args : TableArgs} {doc : Entries}
    (h : args.has_table doc = false) :
    args.action doc = some .InternalRejectMissingTable := by
  unfold TableArgs.action
  rw [h]
  rfl

theorem action_eq_insert {args : TableArgs} {doc : Entries}
    (hht : args.has_table doc = true) (hge : args.get_entry doc = Option.none)
    (hr : args.remove = false) (hm : args.modify = false) :
    args.action doc = some (.Insert args) := by
  unfold TableArgs.action
  rw [hht, hr, hm]
  simp [hge]

/-- The resolver never returns the `Remove` action. -/
theorem action_ne_remove (args : TableArgs) (doc : Entries) (b : TableArgs) :
    args.action doc ≠ some (.Remove b) := by
  intro h
  cases hht : args.has_table doc with
  | false => rw [action_eq_missing hht] at h; simp at h
  | true =>
    cases hge : args.get_entry doc with
    | none =>
      cases hr : args.remove <;> cases hm : args.modify
      · rw [action_eq_insert hht hge hr hm] at h; simp at h
      · rw [action_eq_absent hht hge (Or.inl hm)] at h; simp at h
      · rw [action_eq_absent hht hge (Or.inr ⟨hr, hm⟩)] at h; simp at h
      · rw [action_eq_absent hht hge (Or.inl hm)] at h; simp at h
    | some e =>
      cases hr : args.remove <;> cases hm : args.modify
      · rw [action_eq_ff hr hm hge] at h; split_ifs at h <;> simp at h
      · rw [action_eq_ft hr hm hge] at h; split_ifs at h <;> simp at h
      · rw [action_eq_tf hr hm hge] at h; split_ifs at h <;> simp at h
      · rw [action_eq_tt hr hm hge] at h; split_ifs at h <;> simp at h

theorem getTablePath_set_ne {k1 key : String} (hk1 : k1 ≠ key)
    (s : Entries) (item : Item) (q : List String) :
    getTablePath (s.set key item) (k1 :: q) = getTablePath s (k1 :: q) := by
  simp only [getTablePath]
  rw [get_set_ne hk1]

/-- Writing one key of a table preserves the presence of every table and
key not lying under that key. -/
theorem pres_set (s : Entries) (key : String) (item : Item) (p : List String)
    (hp : ¬ ([key] <+: p)) :
    (tablePresent s p = true → tablePresent (s.set key item) p = true) ∧
    (∀ k, keyPresent s p k = true → keyPresent (s.set key item) p k = true) := by
  cases p with
  | nil =>
    refine ⟨fun _ => rfl, fun k h => ?_⟩
    simp only [keyPresent, getTablePath] at h ⊢
    exact containsKey_set_mono _ _ h
  | cons p1 q =>
    have hk1 : p1 ≠ key := by
      intro hh
      subst hh
      exact hp ⟨q, rfl⟩
    constructor
    · intro h
      unfold tablePresent at h ⊢
      rw [getTablePath_set_ne hk1]
      exact h
    · intro k h
      unfold keyPresent at h ⊢
      rw [getTablePath_set_ne hk1]
      exact h

/-- Presence preservation through `modifyTablePath`: if the operation `f`
preserves presence off the relative paths prefixed by `bad`, the whole
rewrite preserves presence off the paths prefixed by `segs ++ bad` (the
fresh tables the fold creates only add entries). -/
theorem modify_pres {α : Type} (bad : List String) (f : Entries → Entries × α)
    (hf : ∀ s p, ¬ (bad <+: p) →
      (tablePresent s p = true → tablePresent (f s).1 p = true) ∧
      (∀ k, keyPresent s p k = true → keyPresent (f s).1 p k = true)) :
    ∀ (segs : List String) (t : Entries) (p : List String), ¬ (segs ++ bad <+: p) →
      (tablePresent t p = true → tablePresent (modifyTablePath t segs f).1 p = true) ∧
      (∀ k, keyPresent t p k = true → keyPresent (modifyTablePath t segs f).1 p k = true) := by
  intro segs
  induction segs with
  | nil =>
    intro t p hp
    exact hf t p (by simpa using hp)
  | cons k1 ks ih =>
    intro t p hp
    cases hgk : t.get? k1 with
    | none =>
      rw [modify_cons_none hgk ks f]
      cases p with
      | nil =>
        refine ⟨fun _ => rfl, fun k h => ?_⟩
        simp only [keyPresent, getTablePath] at h ⊢
        exact containsKey_set_mono _ _ h
      | cons p1 q =>
        by_cases hp1 : p1 = k1
        · subst hp1
          constructor
          · intro h
            simp [tablePresent, getTablePath, hgk] at h
          · intro k h
            simp [keyPresent, getTablePath, hgk] at h
        · constructor
          · intro h
            unfold tablePresent at h ⊢
            rw [getTablePath_set_ne hp1]
            exact h
          · intro k h
            unfold keyPresent at h ⊢
            rw [getTablePath_set_ne hp1]
            exact h
    | some i =>
      cases i with
      | table sub =>
        rw [modify_cons_table hgk ks f]
        cases p with
        | nil =>
          refine ⟨fun _ => rfl, fun k h => ?_⟩
          simp only [keyPresent, getTablePath] at h ⊢
          exact containsKey_set_mono _ _ h
        | cons p1 q =>
          by_cases hp1 : p1 = k1
          · subst hp1
            have hq : ¬ (ks ++ bad <+: q) := by
              intro hh
              obtain ⟨r, hr⟩ := hh
              exact hp ⟨r, by simp [hr]⟩
            have hih := ih sub q hq
            constructor
            · intro h
              have h' : tablePresent sub q = true := by
                simpa [tablePresent, getTablePath, hgk] using h
              have h2 := hih.1 h'
              simpa [tablePresent, getTablePath, get_set_self] using h2
            · intro k h
              have h' : keyPresent sub q k = true := by
                simpa [keyPresent, getTablePath, hgk] using h
              have h2 := hih.2 k h'
              simpa [keyPresent, getTablePath, get_set_self] using h2
          · constructor
            · intro h
              unfold tablePresent at h ⊢
              rw [getTablePath_set_ne hp1]
              exact h
            · intro k h
              unfold keyPresent at h ⊢
              rw [getTablePath_set_ne hp1]
              exact h
      | none =>
        rw [modify_cons_blocked hgk (by intro s hh; cases hh) ks f]
        exact ⟨fun h => h, fun k h => h⟩
      | value v =>
        rw [modify_cons_blocked hgk (by intro s hh; cases hh) ks f]
        exact ⟨fun h => h, fun k h => h⟩
      | arrayOfTables r =>
        rw [modify_cons_blocked hgk (by intro s hh; cases hh) ks f]
        exact ⟨fun h => h, fun k h => h⟩

/-- `setOp` preserves the presence of every table and key not lying
under the written key. -/
theorem setOp_pres (key : String) (vt : Types) (item : Item) (s : Entries)
    (q : List String) (hq : ¬ ([key] <+: q)) :
    (tablePresent s q = true → tablePresent (setOp key vt item s).1 q = true) ∧
    (∀ k, keyPresent s q k = true → keyPresent (setOp key vt item s).1 q k = true) := by
  unfold setOp
  cases hso : s.get? key with
  | none => simpa only [hso] using pres_set s key item q hq
  | some occ =>
    by_cases hty : vt.is_type occ = true
    · simpa only [hso, hty, if_true] using pres_set s key item q hq
    · simp only [hso, hty, if_false]
      exact ⟨fun h => h, fun k h => h⟩

/-- `set_item` preserves the presence of every table and key not lying
under the request's target entry. -/
theorem set_item_pres (args : TableArgs) (doc : Entries) (p : List String)
    (hp : ¬ (args.target <+: p)) :
    (tablePresent doc p = true → tablePresent (args.set_item doc).1 p = true) ∧
    (∀ k, keyPresent doc p k = true → keyPresent (args.set_item doc).1 p k = true) := by
  cases hv : args.value with
  | none =>
    have hstep : args.set_item doc = (doc, .errNoValue) := by
      unfold TableArgs.set_item
      rw [hv]
    rw [hstep]
    exact ⟨fun h => h, fun k h => h⟩
  | some item =>
    have hmod := modify_pres [args.key] (setOp args.key args.value_type item)
      (fun s q hq => setOp_pres args.key args.value_type item s q hq)
      args.segs doc p (by exact hp)
    have hstep : args.set_item doc =
        finishSet (modifyTablePath doc args.segs (setOp args.key args.value_type item)) := by
      unfold TableArgs.set_item
      rw [hv]
    have hfst : (args.set_item doc).1 =
        (modifyTablePath doc args.segs (setOp args.key args.value_type item)).1 := by
      rw [hstep]
      cases hmm : modifyTablePath doc args.segs (setOp args.key args.value_type item) with
      | mk d r2 => cases r2 <;> rfl
    rw [hfst]
    exact hmod

/-- `evalStep` on any action other than `Remove` preserves presence off
the request's target entry. -/
theorem evalStep_pres (args : TableArgs) (doc : Entries) (a : Option TableAction)
    (hnr : ∀ b, a ≠ some (.Remove b)) (p : List String)
    (hp : ¬ (args.target <+: p)) :
    (tablePresent doc p = true → tablePresent (evalStep args doc a).1 p = true) ∧
    (∀ k, keyPresent doc p k = true → keyPresent (evalStep args doc a).1 p k = true) := by
  cases a with
  | none => exact ⟨fun h => h, fun k h => h⟩
  | some act =>
    have hset : ∀ (b : TableArgs),
        (evalStep args doc (some (.Replace b))).1 = (args.set_item doc).1 ∧
        (evalStep args doc (some (.Insert b))).1 = (args.set_item doc).1 := by
      intro b
      cases hsi : args.set_item doc with
      | mk d r => cases r <;> simp [evalStep, hsi]
    cases act with
    | Remove b => exact absurd rfl (hnr b)
    | Replace b =>
      rw [(hset b).1]
      exact set_item_pres args doc p hp
    | Insert b =>
      rw [(hset b).2]
      exact set_item_pres args doc p hp
    | View b => exact ⟨fun h => h, fun k h => h⟩
    | Exists b => exact ⟨fun h => h, fun k h => h⟩
    | WouldRemove => exact ⟨fun h => h, fun k h => h⟩
    | WouldReplace => exact ⟨fun h => h, fun k h => h⟩
    | RejectTypeMismatch => exact ⟨fun h => h, fun k h => h⟩
    | RejectExistingValueMismatch => exact ⟨fun h => h, fun k h => h⟩
    | InternalRejectMissingTable => exact ⟨fun h => h, fun k h => h⟩
    | NoOP => exact ⟨fun h => h, fun k h => h⟩

/-- Equation of `eval` when the first resolution signals a missing
table. -/
theorem eval_eq_internal {args : TableArgs} {doc : Entries}
    (ha : args.action doc = some .InternalRejectMissingTable) :
    args.eval doc =
      if (args.get_table_mut doc).2 then
        evalStep args (args.get_table_mut doc).1
          (args.action (args.get_table_mut doc).1)
      else ((args.get_table_mut doc).1, .error "Could not create table") := by
  unfold TableArgs.eval
  rw [ha]

/-- `eval` preserves presence off the request's target entry. -/
theorem eval_pres (args : TableArgs) (doc : Entries) (p : List String)
    (hp : ¬ (args.target <+: p)) :
    (tablePresent doc p = true → tablePresent ((args.eval doc).1) p = true) ∧
    (∀ k, keyPresent doc p k = true → keyPresent ((args.eval doc).1) p k = true) := by
  have hmat := modify_pres [args.key] (fun t => (t, ()))
    (fun s q _ => ⟨fun h => h, fun k h => h⟩) args.segs doc p (by exact hp)
  cases hact : args.action doc with
  | none =>
    have : args.eval doc = evalStep args doc Option.none := by
      unfold TableArgs.eval
      rw [hact]
    rw [this]
    exact ⟨fun h => h, fun k h => h⟩
  | some act =>
    cases hInt : decide (act = TableAction.InternalRejectMissingTable) with
    | true =>
      have hact' : args.action doc = some .InternalRejectMissingTable := by
        rw [hact, of_decide_eq_true hInt]
      rw [eval_eq_internal hact']
      by_cases hm2 : (args.get_table_mut doc).2 = true
      · rw [if_pos hm2]
        have h2 := evalStep_pres args (args.get_table_mut doc).1
          (args.action (args.get_table_mut doc).1)
          (fun b => action_ne_remove args (args.get_table_mut doc).1 b) p hp
        exact ⟨fun h => h2.1 (hmat.1 h), fun k h => h2.2 k (hmat.2 k h)⟩
      · rw [if_neg hm2]
        exact hmat
    | false =>
      have hne : act ≠ TableAction.InternalRejectMissingTable :=
        of_decide_eq_false hInt
      have heq : args.eval doc = evalStep args doc (some act) := by
        unfold TableArgs.eval
        rw [hact]
        cases act <;> first | rfl | exact absurd rfl hne
      rw [heq]
      refine evalStep_pres args doc (some act) (fun b hb => ?_) p hp
      injection hb with hb
      subst hb
      exact action_ne_remove args doc b hact

/-- The drain loop preserves presence off every pending request's target
entry. -/
theorem evalLoop_pres : ∀ (pending : List TableArgs) (doc : Entries)
    (acc : List (TableAction × TableArgs)) (p : List String),
    (∀ a ∈ pending, ¬ (TableArgs.target a <+: p)) →
    (tablePresent doc p = true → tablePresent ((evalLoop doc acc pending).1) p = true) ∧
    (∀ k, keyPresent doc p k = true → keyPresent ((evalLoop doc acc pending).1) p k = true) := by
  intro pending
  induction pending with
  | nil =>
    intro doc acc p _
    exact ⟨fun h => h, fun k h => h⟩
  | cons args rest ih =>
    intro doc acc p hp
    have h1 := eval_pres args doc p (hp args (List.mem_cons_self _ _))
    have hrest : ∀ a ∈ rest, ¬ (TableArgs.target a <+: p) :=
      fun a ha => hp a (List.mem_cons_of_mem _ ha)
    cases he : args.eval doc with
    | mk doc2 res =>
      rw [he] at h1
      cases res with
      | ok a =>
        have heq : evalLoop doc acc (args :: rest) =
            evalLoop doc2 (acc ++ [(a, args)]) rest := by
          conv_lhs => unfold evalLoop
          rw [he]
        rw [heq]
        have h2 := ih doc2 (acc ++ [(a, args)]) p hrest
        exact ⟨fun h => h2.1 (h1.1 h), fun k h => h2.2 k (h1.2 k h)⟩
      | error e =>
        have heq : evalLoop doc acc (args :: rest) = evalLoop doc2 acc rest := by
          conv_lhs => unfold evalLoop
          rw [he]
        rw [heq]
        have h2 := ih doc2 acc p hrest
        exact ⟨fun h => h2.1 (h1.1 h), fun k h => h2.2 k (h1.2 k h)⟩

/-! ### C10 -/

/-- A document holding `t.k` as a nested table with entry `x = 5`. -/
def exDocNested : Entries :=
  .cons "t" (.table (.cons "k" (.table (.cons "x" exVal5 .nil)) .nil)) .nil

/-- A force-replace request (`remove=true, modify=true`) declaring the
`Import` type for the table entry `t.k` and supplying the scalar `7`. -/
def exArgsForceImport : TableArgs :=
  { table := "t", key := "k", remove := true, modify := true,
    value_type := .Import, value := some exVal7 }

/-- The journal whose one pending request is the force replace of the
table entry `t.k`. -/
def exJournalNested : Journal :=
  { doc := exDocNested, pending := [exArgsForceImport] }

/-- Counterexample to C10: the resolver resolves the force replace of the
*table* entry `t.k` (declared type `Import`) to `Replace`, and applying
it overwrites the table with the scalar `7` — the table `t.k` and the key
`x` it held are no longer present after `evaluate_args`, so evaluation
can delete keys even though it never executes a `Remove` action. -/
theorem never_remove_counterexample :
    exArgsForceImport.action exDocNested = some (.Replace exArgsForceImport) ∧
    tablePresent exDocNested ["t", "k"] = true ∧
    keyPresent exDocNested ["t", "k"] "x" = true ∧
    exJournalNested.evaluate_args.doc =
      .cons "t" (.table (.cons "k" exVal7 .nil)) .nil ∧
    tablePresent exJournalNested.evaluate_args.doc ["t", "k"] = false ∧
    keyPresent exJournalNested.evaluate_args.doc ["t", "k"] "x" = false :=
  ⟨rfl, rfl, rfl, rfl, rfl, rfl⟩

/-- C10 as amended: the resolver never returns the `Remove` action, so
evaluation never executes the removal path; but a resolved `Replace` (or
`Insert`) overwrites the entry at the request's target, which can replace
a table-typed entry and thereby drop the tables and keys nested beneath
it.  Apart from paths passing through some request's target entry, every
table and key present before `eval`/`evaluate_args` is still present
afterwards. -/
theorem never_remove_amended (args : TableArgs) (doc : Entries) :
    (∀ b, args.action doc ≠ some (.Remove b)) ∧
    (∀ p, ¬ (args.target <+: p) →
      (tablePresent doc p = true → tablePresent ((args.eval doc).1) p = true) ∧
      (∀ k, keyPresent doc p k = true → keyPresent ((args.eval doc).1) p k = true)) ∧
    (∀ (j : Journal) (p : List String),
      (∀ a ∈ j.pending, ¬ (TableArgs.target a <+: p)) →
      (tablePresent j.doc p = true → tablePresent (Journal.evaluate_args j).doc p = true) ∧
      (∀ k, keyPresent j.doc p k = true →
        keyPresent (Journal.evaluate_args j).doc p k = true)) :=
  ⟨fun b => action_ne_remove args doc b,
   fun p hp => eval_pres args doc p hp,
   fun j p hp => evalLoop_pres j.pending j.doc j.evaluated p hp⟩

/-- Witness for C10's amended statement: after the force replace of
`t.k`, the table `t` and its key `k` (off the target's strict interior)
are still present. -/
theorem never_remove_amended_witness :
    exArgsForceImport.action exDocNested ≠ some (.Remove exArgsForceImport) ∧
    tablePresent ((exArgsForceImport.eval exDocNested).1) ["t"] = true ∧
    keyPresent ((exArgsForceImport.eval exDocNested).1) ["t"] "k" = true :=
  ⟨(never_remove_amended exArgsForceImport exDocNested).1 exArgsForceImport,
   ((never_remove_amended exArgsForceImport exDocNested).2.1 ["t"] (by decide)).1 rfl,
   ((never_remove_amended exArgsForceImport exDocNested).2.1 ["t"] (by decide)).2 "k" rfl⟩

end Tomldb
